import Mathlib

/-!
Shallow embedding of the satisfactory-resource-tracer core
(src/model/recipe.py, src/model/codex.py, src/model/assembly_line.py).

Quantities are rationals (Python floats carry exact arithmetic here; the spec's
invariants are stated up to floating-point tolerance, which exact rationals
realise as equality).  In-place mutation with exceptions is embedded as
state-passing: each operation returns the tree as mutated so far together with
an optional error, so a raised exception leaves the writes already committed,
exactly as Python does.
-/

/-- Ingredient: a good name with a per-minute rate (model/recipe.py, class
Ingredient; `raw_quantity` is unused by the core and omitted). -/
structure Ingredient where
  name : String
  quantity : ℚ
deriving DecidableEq, Repr

/-- Recipe (model/recipe.py, class Recipe). -/
structure Recipe where
  name : String
  machine : String
  time : ℚ
  energy : Int
  inputs : List Ingredient
  outputs : List Ingredient
deriving DecidableEq, Repr

/-- `Recipe.product`: the primary product `outputs[0]` (model/recipe.py). -/
def Recipe.product (r : Recipe) : Ingredient :=
  r.outputs.headD ⟨"", 0⟩

/-- Production Node (model/assembly_line.py, class Node): a recipe, an
instance count (`quantity`), and owned children.  The Python parent
back-reference is represented implicitly by the tree structure. -/
inductive Node : Type where
  | mk : Recipe → ℚ → List Node → Node

def Node.recipe : Node → Recipe
  | .mk r _ _ => r

def Node.quantity : Node → ℚ
  | .mk _ q _ => q

def Node.children : Node → List Node
  | .mk _ _ cs => cs

-- Pre-order listing of all nodes of a tree (node first, then children in
-- order), the traversal order used by find_node and print_tree.
mutual
def preOrderNodes : Node → List Node
  | .mk r q cs => .mk r q cs :: preOrderList cs

def preOrderList : List Node → List Node
  | [] => []
  | c :: rest => preOrderNodes c ++ preOrderList rest
end

-- The primary-product names of all nodes, node first then children in order.
mutual
def productNames : Node → List String
  | .mk rcp _ cs => (Recipe.product rcp).name :: productNamesList cs

def productNamesList : List Node → List String
  | [] => []
  | c :: rest => productNames c ++ productNamesList rest
end

/-- Role selector for `getRecipesByPart` (model/codex.py, the `by` argument:
"any" / "ingredient" / "product"). -/
inductive Role : Type where
  | anyPart
  | ingredient
  | product
deriving DecidableEq, Repr

/-- Codex.get_recipes_by_part (model/codex.py lines 24-44): walk the catalog in
order; skip recipes whose machine is excluded; collect a recipe when `part`
occurs among the names of the selected components, where the components are
`inputs` for roles any/ingredient plus `[recipe.product]` for roles
any/product. -/
def getRecipesByPart : List Recipe → String → Role → List String → List Recipe
  | [], _, _, _ => []
  | r :: rest, part, role, excludeMachines =>
    if r.machine ∈ excludeMachines then
      getRecipesByPart rest part role excludeMachines
    else
      if part ∈ (((if role = .anyPart ∨ role = .ingredient then r.inputs else []) ++
        (if role = .anyPart ∨ role = .product then [r.product] else [])).map
          Ingredient.name) then
        r :: getRecipesByPart rest part role excludeMachines
      else
        getRecipesByPart rest part role excludeMachines

/-- simplest_recipe (model/assembly_line.py line 33): Python `min` by number of
inputs, returning the first minimal element. -/
def simplestRecipe (options : List Recipe) : Option Recipe :=
  match options with
  | [] => none
  | r :: rest =>
    some (rest.foldl (fun best x =>
      if x.inputs.length < best.inputs.length then x else best) r)

/-- max_output (model/assembly_line.py line 36): Python `max` by primary
product rate, returning the first maximal element. -/
def maxOutput (options : List Recipe) : Option Recipe :=
  match options with
  | [] => none
  | r :: rest =>
    some (rest.foldl (fun best x =>
      if best.product.quantity < x.product.quantity then x else best) r)

/-- preferred_names (model/assembly_line.py line 39): filter to the allow-list
of recipe names; `new_options or options` falls back to the unfiltered list
when the filtered list is empty; then max_output. -/
def preferredNames (options : List Recipe) (names : List String) : Option Recipe :=
  let newOptions := options.filter (fun r => r.name ∈ names)
  maxOutput (if newOptions = [] then options else newOptions)

/-- Spec-side predicate (refinement comparison for the catalog query): the
spec says a recipe is a consumer of a good when the good appears in its
inputs. -/
def specConsumes (r : Recipe) (part : String) : Bool :=
  r.inputs.any (fun i => i.name = part)

/-- Code-side producer predicate: the good is the name of the primary product
`outputs[0]` only (this is what `get_recipes_by_part` actually checks). -/
def producesPrimary (r : Recipe) (part : String) : Bool :=
  r.product.name = part

/-- The role-dependent membership test that `get_recipes_by_part` implements:
consumer checks inputs, producer checks only the primary product, and the
any role is their union. -/
def roleMatches (r : Recipe) (part : String) (role : Role) : Bool :=
  match role with
  | .ingredient => specConsumes r part
  | .product => producesPrimary r part
  | .anyPart => specConsumes r part || producesPrimary r part

/-- First input ingredient with the given name: the `for ... if ... break`
lookup used by both scaling helpers (assembly_line.py lines 179-184, 195-200). -/
def findIngredient (inputs : List Ingredient) (name : String) : Option Ingredient :=
  inputs.find? (fun i => decide (i.name = name))

-- Factory.find_node / _find_node_by_product (assembly_line.py lines 149-162):
-- pre-order depth-first search for the first node whose primary product has
-- the given name; None when absent.
mutual
def findNodeByProduct : Node → String → Option Node
  | .mk rcp q cs, g =>
    if (Recipe.product rcp).name = g then some (.mk rcp q cs)
    else findNodeInChildren cs g

def findNodeInChildren : List Node → String → Option Node
  | [], _ => none
  | c :: rest, g =>
    match findNodeByProduct c g with
    | some n => some n
    | none => findNodeInChildren rest g
end

/-- The two ways a scale call escapes with an exception: `anchorMissing` is the
crash when `find_node` returns None (no node produces the anchor good), and
`ingredientMissing` is the ValueError "Product not found in recipe tree" raised
by both propagation helpers. -/
inductive ScaleError : Type where
  | anchorMissing
  | ingredientMissing
deriving DecidableEq, Repr

-- Factory._scale_node_by_product (assembly_line.py lines 176-189), the
-- downward propagation.  The pair's second component records a pending
-- exception; the first component is the tree as mutated so far (Python raises
-- leave earlier in-place writes committed).  The ingredient lookup happens
-- before the node's quantity is written; children are processed in order and
-- an exception aborts the remaining ones.
mutual
def scaleByProduct : Node → Recipe → ℚ → Node × Option ScaleError
  | .mk rcp q cs, mRcp, mQty =>
    match findIngredient mRcp.inputs (Recipe.product rcp).name with
    | none => (.mk rcp q cs, some .ingredientMissing)
    | some ing =>
      let q2 := ing.quantity * mQty / (Recipe.product rcp).quantity
      match scaleChildrenByProduct cs rcp q2 with
      | (cs2, e) => (.mk rcp q2 cs2, e)

def scaleChildrenByProduct : List Node → Recipe → ℚ → List Node × Option ScaleError
  | [], _, _ => ([], none)
  | c :: rest, mRcp, mQty =>
    match scaleByProduct c mRcp mQty with
    | (c2, none) =>
      match scaleChildrenByProduct rest mRcp mQty with
      | (rest2, e) => (c2 :: rest2, e)
    | (c2, some e) => (c2 :: rest, some e)
end

-- Factory.scale plus Factory._scale_node_by_ingredient (assembly_line.py
-- lines 164-208), rooted at the whole tree.  `scaleInSubtree t g r` is `none`
-- when no node of `t` produces `g` (pre-order search as in find_node);
-- otherwise it returns the mutated tree together with a pending exception.
-- When the anchor sits strictly below a node, that node performs the upward
-- step of _scale_node_by_ingredient: look up the input matching the path
-- child's product (ValueError when absent, with the node's own quantity not
-- yet written), rewrite its own quantity, re-scale its children other than
-- the match child in order (`child is match_node: continue`; the match child
-- is identified here by its position, returned as the pre/post split), and
-- let its parent continue the same way - which is exactly what the recursion
-- returning through scaleInChildren does.  An exception below aborts the
-- sweep, leaving the remaining children untouched, as Python raises do.
mutual
def scaleInSubtree : Node → String → ℚ → Option (Node × Option ScaleError)
  | .mk rcp q cs, g, r =>
    if (Recipe.product rcp).name = g then
      let q2 := r / (Recipe.product rcp).quantity
      match scaleChildrenByProduct cs rcp q2 with
      | (cs2, e) => some (.mk rcp q2 cs2, e)
    else
      match scaleInChildren cs g r with
      | none => none
      | some (pre, c2, post, some e) => some (.mk rcp q (pre ++ c2 :: post), some e)
      | some (pre, c2, post, none) =>
        match findIngredient rcp.inputs (Recipe.product c2.recipe).name with
        | none => some (.mk rcp q (pre ++ c2 :: post), some .ingredientMissing)
        | some ing =>
          let q2 := (Recipe.product c2.recipe).quantity * c2.quantity / ing.quantity
          match scaleChildrenByProduct pre rcp q2 with
          | (pre2, some e) => some (.mk rcp q2 (pre2 ++ c2 :: post), some e)
          | (pre2, none) =>
            match scaleChildrenByProduct post rcp q2 with
            | (post2, e) => some (.mk rcp q2 (pre2 ++ c2 :: post2), e)

def scaleInChildren : List Node → String → ℚ →
    Option (List Node × Node × List Node × Option ScaleError)
  | [], _, _ => none
  | c :: rest, g, r =>
    match scaleInSubtree c g r with
    | some (c2, e) => some ([], c2, rest, e)
    | none =>
      match scaleInChildren rest g r with
      | some (pre, c2, post, e) => some (c :: pre, c2, post, e)
      | none => none
end

/-- Factory.scale (assembly_line.py lines 164-173): locate the anchor by
product name and run both propagations; a missing anchor crashes (find_node
returns None and the attribute access fails), modelled as `anchorMissing`
with the tree untouched. -/
def scale (t : Node) (g : String) (r : ℚ) : Node × Option ScaleError :=
  match scaleInSubtree t g r with
  | none => (t, some .anchorMissing)
  | some (t2, e) => (t2, e)

-- Factory._build_factory (assembly_line.py lines 120-147).  The recursion is
-- made total with a fuel argument that bounds the recursion depth; every
-- theorem below either holds for all fuel values or quantifies over them.
-- Behaviour per call: stop when depth == 0; stop when the node's primary
-- product is already in the shared products set; otherwise add it and, for
-- each input of the recipe in order, query producer recipes (role "product",
-- the Python default), skip ingredients with no producer, pick one recipe
-- with the fitness function, append a fresh child with quantity 1 and recurse
-- into it with depth - 1, threading the shared products set left to right.
mutual
def buildFactory (reg : List Recipe) (fitness : List Recipe → Recipe)
    (excl : List String) : Node → List String → Int → Nat → Node × List String
  | node, products, _, 0 => (node, products)
  | .mk rcp q cs, products, depth, fuel + 1 =>
    if depth = 0 then (.mk rcp q cs, products)
    else if (Recipe.product rcp).name ∈ products then (.mk rcp q cs, products)
    else
      match buildChildren reg fitness excl rcp.inputs
          ((Recipe.product rcp).name :: products) (depth - 1) fuel with
      | (newCs, products2) => (.mk rcp q (cs ++ newCs), products2)
  termination_by _ _ _ fuel => (fuel, 0)

def buildChildren (reg : List Recipe) (fitness : List Recipe → Recipe)
    (excl : List String) : List Ingredient → List String → Int → Nat → List Node × List String
  | [], products, _, _ => ([], products)
  | input :: rest, products, childDepth, fuel =>
    match getRecipesByPart reg input.name .product excl with
    | [] => buildChildren reg fitness excl rest products childDepth fuel
    | o :: os =>
      match buildFactory reg fitness excl (.mk (fitness (o :: os)) 1 [])
          products childDepth fuel with
      | (child, products2) =>
        match buildChildren reg fitness excl rest products2 childDepth fuel with
        | (others, products3) => (child :: others, products3)
  termination_by inputs _ _ fuel => (fuel, inputs.length + 1)
end

/-- Factory.build (assembly_line.py lines 93-118): prune the root's children
and run the recursive expansion with the shared products set.  The Python
`existing_products or set()` has the same contents as `existing` in both
branches (an absent or empty argument gives the empty set), so only the
aliasing differs; see `buildCallerSet`. -/
def build (reg : List Recipe) (fitness : List Recipe → Recipe) (excl : List String)
    (existing : List String) (maxDepth : Int) (fuel : Nat) (root : Node) :
    Node × List String :=
  buildFactory reg fitness excl (.mk root.recipe root.quantity []) existing maxDepth fuel

/-- Contents of the caller-supplied `existing_products` set after build
returns: `existing_products or set()` aliases the caller's set exactly when it
is non-empty, so the recursion's writes land in it; an empty set is replaced
by a fresh one and stays empty. -/
def buildCallerSet (reg : List Recipe) (fitness : List Recipe → Recipe)
    (excl : List String) (existing : List String) (maxDepth : Int) (fuel : Nat)
    (root : Node) : List String :=
  if existing = [] then existing
  else (build reg fitness excl existing maxDepth fuel root).2

-- The primary-product names of the nodes of a tree that carry children, in
-- pre-order: a node only ever gains children in the expansion branch of
-- _build_factory, so on a tree made of fresh childless nodes these are
-- products of nodes the recursion expanded.
mutual
def expandedProducts : Node → List String
  | .mk rcp _ cs =>
    (if cs.isEmpty then [] else [(Recipe.product rcp).name]) ++ expandedList cs

def expandedList : List Node → List String
  | [] => []
  | c :: rest => expandedProducts c ++ expandedList rest
end

-- The post-scale consistency invariant of the spec, as a decidable check on
-- the tree: every child's production rate (quantity x primary product rate)
-- equals its parent's consumption rate for that good (parent quantity x the
-- rate of the first parent input whose name is the child's product name).
mutual
def consistentB : Node → Bool
  | .mk rcp q cs => consistentChildrenB cs rcp q

def consistentChildrenB : List Node → Recipe → ℚ → Bool
  | [], _, _ => true
  | c :: rest, rcp, q =>
    (match findIngredient rcp.inputs (Recipe.product c.recipe).name with
     | none => false
     | some ing =>
        decide (c.quantity * (Recipe.product c.recipe).quantity = q * ing.quantity))
    && consistentB c && consistentChildrenB rest rcp q
end

-- Well-formedness from the claim: every non-root node's primary product name
-- occurs among its parent recipe's inputs.
mutual
def wellFormedB : Node → Bool
  | .mk rcp _ cs => wellFormedChildrenB cs rcp

def wellFormedChildrenB : List Node → Recipe → Bool
  | [], _ => true
  | c :: rest, rcp =>
    (findIngredient rcp.inputs (Recipe.product c.recipe).name).isSome
    && wellFormedB c && wellFormedChildrenB rest rcp
end

-- The data-integrity precondition the spec lets the core assume: every
-- primary-product rate and every input rate in the tree is strictly positive.
mutual
def ratesPositiveB : Node → Bool
  | .mk rcp _ cs =>
    decide (0 < (Recipe.product rcp).quantity)
    && rcp.inputs.all (fun i => decide (0 < i.quantity))
    && ratesPositiveListB cs

def ratesPositiveListB : List Node → Bool
  | [] => true
  | c :: rest => ratesPositiveB c && ratesPositiveListB rest
end

-- Factory.tally_machines / _tally_machines (assembly_line.py lines 210-218):
-- depth-first walk adding ceil(quantity) to the machine's counter.  The
-- Python defaultdict(int) is modelled as a total function that is 0 outside
-- the machines actually seen, which is the whole observable content of the
-- returned mapping.
mutual
def tallyAux : Node → (String → Int) → (String → Int)
  | .mk rcp q cs, m =>
    tallyList cs (fun s => if s = rcp.machine then m s + ⌈q⌉ else m s)

def tallyList : List Node → (String → Int) → (String → Int)
  | [], m => m
  | c :: rest, m => tallyList rest (tallyAux c m)
end

def tallyMachines (t : Node) : String → Int :=
  tallyAux t (fun _ => 0)

-- Concrete data for witnesses and counterexamples, taken from the spec's
-- end-to-end example (section 8.6) plus a byproduct recipe.
def smeltOre : Recipe := ⟨"Smelt Ore", "Smelter", 1, 1, [⟨"Ore", 60⟩], [⟨"Bar", 30⟩]⟩
def makeWidget : Recipe := ⟨"Make Widget", "Assembler", 1, 1, [⟨"Bar", 20⟩], [⟨"Widget", 10⟩]⟩
def widgetTree : Node := .mk makeWidget 1 [.mk smeltOre 1 []]

/-- A recipe with a byproduct: primary product "Slag", byproduct "Gas". -/
def slagRecipe : Recipe := ⟨"Burn Rock", "Furnace", 1, 1, [⟨"Rock", 10⟩], [⟨"Slag", 5⟩, ⟨"Gas", 2⟩]⟩

/-- A tree whose child's product "Slag" does not occur among the root recipe's
inputs: scaling its root writes the root quantity and only then raises. -/
def orphanTree : Node := .mk makeWidget 1 [.mk slagRecipe 1 []]

-- Induction principle for the nested tree type: to prove a property of every
-- node it suffices to prove it for a node given it for all its children.
mutual
def nodeMemRec {P : Node → Prop}
    (h : ∀ rcp q cs, (∀ c ∈ cs, P c) → P (.mk rcp q cs)) : ∀ n, P n
  | .mk rcp q cs => h rcp q cs (listMemRec h cs)

def listMemRec {P : Node → Prop}
    (h : ∀ rcp q cs, (∀ c ∈ cs, P c) → P (.mk rcp q cs)) :
    ∀ l : List Node, ∀ c ∈ l, P c
  | n :: ns, c, hc =>
    match c, hc with
    | _, List.Mem.head _ => nodeMemRec h n
    | _, List.Mem.tail _ h2 => listMemRec h ns _ h2
end

/-- The statement that downward propagation from a matching parent recipe and
quantity rewrites a subtree into a consistent one whose head satisfies the
parent-child rate equation. -/
def ScaleDownOK (c : Node) : Prop :=
  ∀ mRcp mQty c2, ratesPositiveB c = true → scaleByProduct c mRcp mQty = (c2, none) →
    c2.recipe = c.recipe ∧ ratesPositiveB c2 = true ∧ consistentB c2 = true ∧
    ∃ ing, findIngredient mRcp.inputs (Recipe.product c.recipe).name = some ing ∧
      c2.quantity * (Recipe.product c.recipe).quantity = mQty * ing.quantity

/-- The statement that downward propagation is the identity on a subtree that
is already consistent and already satisfies the parent-child rate equation. -/
def ScaleFixOK (c : Node) : Prop :=
  ∀ mRcp mQty, ratesPositiveB c = true → consistentB c = true →
    (∃ ing, findIngredient mRcp.inputs (Recipe.product c.recipe).name = some ing ∧
      c.quantity * (Recipe.product c.recipe).quantity = mQty * ing.quantity) →
    scaleByProduct c mRcp mQty = (c, none)

/-- Downward propagation never changes the tree of product names (with or
without a pending exception). -/
def NamesOK (c : Node) : Prop :=
  ∀ mRcp mQty, productNames ((scaleByProduct c mRcp mQty).1) = productNames c

/-- scaleInSubtree reports no anchor exactly when the good is produced nowhere
in the subtree. -/
def NoneIffOK (t : Node) : Prop :=
  ∀ g r, scaleInSubtree t g r = none ↔ ¬ g ∈ productNames t

/-- After a successful scale rooted anywhere in the subtree, the whole
subtree is consistent; recipes and rate positivity are preserved. -/
def SubOK (t : Node) : Prop :=
  ∀ g r t2, ratesPositiveB t = true → scaleInSubtree t g r = some (t2, none) →
    t2.recipe = t.recipe ∧ ratesPositiveB t2 = true ∧ consistentB t2 = true

/-- find_node finds nothing exactly when the good is produced nowhere. -/
def FindNoneOK (t : Node) : Prop :=
  ∀ g, findNodeByProduct t g = none ↔ ¬ g ∈ productNames t

/-- Whenever scale locates an anchor - whether or not an exception follows -
the anchor's quantity write has been committed: in the resulting tree the
first pre-order producer of the good carries quantity r / its product rate. -/
def AnchorOK (t : Node) : Prop :=
  ∀ g r t2 e, scaleInSubtree t g r = some (t2, e) →
    ∃ a, findNodeByProduct t2 g = some a ∧
      a.quantity = r / (Recipe.product a.recipe).quantity

/-- Re-running a successful scale with the same good and rate reproduces the
same tree with no exception: every quantity the operation writes is derived
from the anchor rate, the recipes and the topology alone. -/
def IdemOK (t : Node) : Prop :=
  ∀ g r u, ratesPositiveB t = true → scaleInSubtree t g r = some (u, none) →
    scaleInSubtree u g r = some (u, none)

/-- Downward propagation only ever raises the ValueError, never the
missing-anchor failure. -/
def DownErrOK (c : Node) : Prop :=
  ∀ mRcp mQty, (scaleByProduct c mRcp mQty).2 ≠ some ScaleError.anchorMissing

/-- scaleInSubtree only ever reports the ValueError, never the missing-anchor
failure: that one is produced by the scale wrapper alone. -/
def SubErrOK (t : Node) : Prop :=
  ∀ g r t2 e, scaleInSubtree t g r = some (t2, e) → e ≠ some ScaleError.anchorMissing

/-- find_node returns the first pre-order node producing the good. -/
def FindPreOK (t : Node) : Prop :=
  ∀ g, findNodeByProduct t g =
    (preOrderNodes t).find? (fun n => decide ((Recipe.product n.recipe).name = g))

/-- The per-machine total over a node list in pre-order. -/
def TallyOK (t : Node) : Prop :=
  ∀ m s, tallyAux t m s = m s +
    (((preOrderNodes t).filter (fun n => decide (n.recipe.machine = s))).map
      (fun n => ⌈n.quantity⌉)).sum

/-- Bookkeeping of one _build_factory call on a childless node: the shared set
only grows, and the products of the nodes it expands are fresh (not in the
incoming set), pairwise distinct, and recorded in the outgoing set. -/
def BuildPOK (reg : List Recipe) (fitness : List Recipe → Recipe)
    (excl : List String) (fuel : Nat) : Prop :=
  ∀ node products depth, node.children = [] →
    products ⊆ (buildFactory reg fitness excl node products depth fuel).2 ∧
    (expandedProducts (buildFactory reg fitness excl node products depth fuel).1).Nodup ∧
    ∀ p ∈ expandedProducts (buildFactory reg fitness excl node products depth fuel).1,
      ¬ p ∈ products ∧ p ∈ (buildFactory reg fitness excl node products depth fuel).2

-- Theorems.

theorem getRecipesByPart_eq_filter (recipes : List Recipe) (part : String)
    (role : Role) (excl : List String) :
    getRecipesByPart recipes part role excl =
      recipes.filter (fun r => !(r.machine ∈ excl : Bool) && roleMatches r part role) := by
  induction recipes with
  | nil => rfl
  | cons r rest ih =>
    have hiff : (part ∈ (((if role = .anyPart ∨ role = .ingredient then r.inputs else []) ++
        (if role = .anyPart ∨ role = .product then [r.product] else [])).map
          Ingredient.name))
        ↔ roleMatches r part role = true := by
      cases role with
      | anyPart =>
        simp only [roleMatches]
        norm_num
        simp [specConsumes, producesPrimary, List.any_eq_true]
        constructor
        · rintro (h | h)
          · exact Or.inl h
          · exact Or.inr h.symm
        · rintro (h | h)
          · exact Or.inl h
          · exact Or.inr h.symm
      | ingredient =>
        simp only [roleMatches]
        norm_num
        simp [specConsumes, List.any_eq_true]
      | product =>
        simp only [roleMatches]
        norm_num
        simp [producesPrimary, eq_comm]
    rw [getRecipesByPart, List.filter_cons]
    by_cases hm : r.machine ∈ excl
    · simp [hm, ih]
    · have hmb : (r.machine ∈ excl : Bool) = false := by
        simpa using hm
      rw [if_neg hm]
      simp only [hmb, Bool.not_false, Bool.true_and]
      by_cases hp : roleMatches r part role = true
      · rw [if_pos (hiff.mpr hp), if_pos hp, ih]
      · rw [if_neg (fun h => hp (hiff.mp h)), if_neg hp, ih]

@[simp] theorem Node.recipe_mk (r : Recipe) (q : ℚ) (cs : List Node) :
    (Node.mk r q cs).recipe = r := rfl

@[simp] theorem Node.quantity_mk (r : Recipe) (q : ℚ) (cs : List Node) :
    (Node.mk r q cs).quantity = q := rfl

@[simp] theorem Node.children_mk (r : Recipe) (q : ℚ) (cs : List Node) :
    (Node.mk r q cs).children = cs := rfl

theorem findIngredient_mem {inputs : List Ingredient} {name : String} {ing : Ingredient}
    (h : findIngredient inputs name = some ing) : ing ∈ inputs ∧ ing.name = name := by
  unfold findIngredient at h
  have h1 := List.mem_of_find?_eq_some h
  have h2 := List.find?_some h
  simp at h2
  exact ⟨h1, h2⟩

theorem scaleChildren_ok_of (cs : List Node) (H : ∀ c ∈ cs, ScaleDownOK c) :
    ∀ mRcp mQty cs2, ratesPositiveListB cs = true →
      scaleChildrenByProduct cs mRcp mQty = (cs2, none) →
      ratesPositiveListB cs2 = true ∧ consistentChildrenB cs2 mRcp mQty = true := by
  induction cs with
  | nil =>
    intro mRcp mQty cs2 _ heq
    rw [scaleChildrenByProduct] at heq
    injection heq with h1 h2
    subst h1
    exact ⟨rfl, rfl⟩
  | cons c rest ih =>
    intro mRcp mQty cs2 hpos heq
    simp only [ratesPositiveListB, Bool.and_eq_true] at hpos
    rw [scaleChildrenByProduct] at heq
    rcases h1 : scaleByProduct c mRcp mQty with ⟨c2, e1⟩
    rw [h1] at heq
    cases e1 with
    | some e => simp at heq
    | none =>
      rcases h2 : scaleChildrenByProduct rest mRcp mQty with ⟨rest2, e2⟩
      rw [h2] at heq
      injection heq with h3 h4
      subst h3
      subst h4
      obtain ⟨hrec, hpos2, hcons2, ing, hing, heqn⟩ :=
        H c (List.mem_cons_self c rest) mRcp mQty c2 hpos.1 h1
      obtain ⟨hposr, hconsr⟩ :=
        ih (fun x hx => H x (List.mem_cons_of_mem c hx)) mRcp mQty rest2 hpos.2 h2
      constructor
      · simp [ratesPositiveListB, hpos2, hposr]
      · rw [consistentChildrenB, hrec, hing]
        simp [heqn, hcons2, hconsr]

theorem scaleByProduct_ok : ∀ c : Node, ScaleDownOK c := by
  intro c
  induction c using nodeMemRec with
  | h rcp q cs ih =>
    intro mRcp mQty c2 hpos heq
    simp only [scaleByProduct] at heq
    split at heq
    · simp at heq
    · rename_i ing hfind
      injection heq with h3 h4
      rcases hsc : scaleChildrenByProduct cs rcp
          (ing.quantity * mQty / (Recipe.product rcp).quantity) with ⟨cs2, e⟩
      rw [hsc] at h3 h4
      simp only [] at h4
      subst h4
      simp only [ratesPositiveB, Bool.and_eq_true, decide_eq_true_eq] at hpos
      obtain ⟨⟨hrate, hinputs⟩, hlist⟩ := hpos
      obtain ⟨hpos2, hcons2⟩ := scaleChildren_ok_of cs ih rcp _ cs2 hlist hsc
      subst h3
      refine ⟨rfl, ?_, ?_, ing, hfind, ?_⟩
      · simp only [ratesPositiveB, Bool.and_eq_true, decide_eq_true_eq]
        exact ⟨⟨hrate, hinputs⟩, hpos2⟩
      · simpa [consistentB] using hcons2
      · have hr : (Recipe.product rcp).quantity ≠ 0 := ne_of_gt hrate
        simp only [Node.quantity_mk, Node.recipe_mk]
        rw [div_mul_cancel₀ _ hr, mul_comm]

theorem scaleChildren_fix_of (cs : List Node) (H : ∀ c ∈ cs, ScaleFixOK c) :
    ∀ mRcp mQty, ratesPositiveListB cs = true →
      consistentChildrenB cs mRcp mQty = true →
      scaleChildrenByProduct cs mRcp mQty = (cs, none) := by
  induction cs with
  | nil => intro mRcp mQty _ _; rfl
  | cons c rest ih =>
    intro mRcp mQty hpos hcons
    simp only [ratesPositiveListB, Bool.and_eq_true] at hpos
    rw [consistentChildrenB] at hcons
    simp only [Bool.and_eq_true] at hcons
    obtain ⟨⟨hhead, hconsc⟩, hconsr⟩ := hcons
    rcases hfind : findIngredient mRcp.inputs (Recipe.product c.recipe).name with _ | ing
    · rw [hfind] at hhead; simp at hhead
    · rw [hfind] at hhead
      have heqn : c.quantity * (Recipe.product c.recipe).quantity = mQty * ing.quantity := by
        simpa using hhead
      rw [scaleChildrenByProduct,
        H c (List.mem_cons_self c rest) mRcp mQty hpos.1 hconsc ⟨ing, hfind, heqn⟩,
        ih (fun x hx => H x (List.mem_cons_of_mem c hx)) mRcp mQty hpos.2 hconsr]

theorem scaleByProduct_fix : ∀ c : Node, ScaleFixOK c := by
  intro c
  induction c using nodeMemRec with
  | h rcp q cs ih =>
    intro mRcp mQty hpos hcons hex
    obtain ⟨ing, hfind, heqn⟩ := hex
    simp only [Node.recipe_mk, Node.quantity_mk] at hfind heqn
    simp only [ratesPositiveB, Bool.and_eq_true, decide_eq_true_eq] at hpos
    obtain ⟨⟨hrate, hinputs⟩, hlist⟩ := hpos
    have hr : (Recipe.product rcp).quantity ≠ 0 := ne_of_gt hrate
    have hconsc : consistentChildrenB cs rcp q = true := by
      simpa [consistentB] using hcons
    have hq2 : ing.quantity * mQty / (Recipe.product rcp).quantity = q := by
      rw [div_eq_iff hr, mul_comm ing.quantity mQty]
      exact heqn.symm
    simp only [scaleByProduct, hfind, hq2,
      scaleChildren_fix_of cs ih rcp q hlist hconsc]

theorem scaleChildren_names_of (cs : List Node) (H : ∀ c ∈ cs, NamesOK c) :
    ∀ mRcp mQty,
      productNamesList ((scaleChildrenByProduct cs mRcp mQty).1) = productNamesList cs := by
  induction cs with
  | nil => intro mRcp mQty; rfl
  | cons c rest ih =>
    intro mRcp mQty
    rw [scaleChildrenByProduct]
    rcases h1 : scaleByProduct c mRcp mQty with ⟨c2, e1⟩
    have hn : productNames c2 = productNames c := by
      have h := H c (List.mem_cons_self c rest) mRcp mQty
      rw [h1] at h; exact h
    cases e1 with
    | some e => simp [productNamesList, hn]
    | none =>
      rcases h2 : scaleChildrenByProduct rest mRcp mQty with ⟨rest2, e2⟩
      have hr : productNamesList rest2 = productNamesList rest := by
        have h := ih (fun x hx => H x (List.mem_cons_of_mem c hx)) mRcp mQty
        rw [h2] at h; exact h
      simp [productNamesList, h2, hn, hr]

theorem scaleByProduct_names : ∀ c : Node, NamesOK c := by
  intro c
  induction c using nodeMemRec with
  | h rcp q cs ih =>
    intro mRcp mQty
    simp only [scaleByProduct]
    rcases hfind : findIngredient mRcp.inputs (Recipe.product rcp).name with _ | ing
    · simp [productNames]
    · simp [productNames, scaleChildren_names_of cs ih]

theorem scaleInSubtree_mk_ne (rcp : Recipe) (q : ℚ) (cs : List Node) (g : String)
    (r : ℚ) (hne : (Recipe.product rcp).name ≠ g) :
    scaleInSubtree (.mk rcp q cs) g r = none ↔ scaleInChildren cs g r = none := by
  rw [scaleInSubtree, if_neg hne]
  rcases h1 : scaleInChildren cs g r with _ | ⟨pre, c2, post, e⟩
  · simp
  · cases e with
    | some err => simp
    | none =>
      rcases hf : findIngredient rcp.inputs (Recipe.product c2.recipe).name with _ | ing
      · simp [hf]
      · rcases h2 : scaleChildrenByProduct pre rcp
            ((Recipe.product c2.recipe).quantity * c2.quantity / ing.quantity) with ⟨pre2, e1⟩
        cases e1 with
        | some err => simp [hf, h2]
        | none =>
          rcases h3 : scaleChildrenByProduct post rcp
              ((Recipe.product c2.recipe).quantity * c2.quantity / ing.quantity) with ⟨post2, e2⟩
          simp [hf, h2, h3]

theorem scaleInChildren_none_of (cs : List Node) (H : ∀ c ∈ cs, NoneIffOK c) :
    ∀ g r, scaleInChildren cs g r = none ↔ ¬ g ∈ productNamesList cs := by
  induction cs with
  | nil => intro g r; simp [scaleInChildren, productNamesList]
  | cons c rest ih =>
    intro g r
    rw [scaleInChildren]
    rcases h1 : scaleInSubtree c g r with _ | ⟨c2, e⟩
    · have hc : ¬ g ∈ productNames c := (H c (List.mem_cons_self c rest) g r).mp h1
      rcases h2 : scaleInChildren rest g r with _ | ⟨pre, c2, post, e⟩
      · have hr := (ih (fun x hx => H x (List.mem_cons_of_mem c hx)) g r).mp h2
        simp [productNamesList, hc, hr]
      · have hr : g ∈ productNamesList rest := by
          by_contra hnr
          rw [← ih (fun x hx => H x (List.mem_cons_of_mem c hx)) g r] at hnr
          rw [h2] at hnr
          cases hnr
        simp [productNamesList, hr]
    · have hc : g ∈ productNames c := by
        by_contra hnc
        rw [← H c (List.mem_cons_self c rest) g r] at hnc
        rw [h1] at hnc
        cases hnc
      simp [productNamesList, hc]

theorem scaleInSubtree_none_iff : ∀ t : Node, NoneIffOK t := by
  intro t
  induction t using nodeMemRec with
  | h rcp q cs ih =>
    intro g r
    by_cases hg : (Recipe.product rcp).name = g
    · rcases hsc : scaleChildrenByProduct cs rcp (r / (Recipe.product rcp).quantity)
        with ⟨cs2, e⟩
      simp [scaleInSubtree, hg, hsc, productNames]
    · rw [scaleInSubtree_mk_ne rcp q cs g r hg, scaleInChildren_none_of cs ih g r]
      constructor
      · intro h hmem
        rcases (by simpa [productNames] using hmem :
            g = (Recipe.product rcp).name ∨ g ∈ productNamesList cs) with he | hm
        · exact hg he.symm
        · exact h hm
      · intro h hm
        exact h (by simp [productNames, hm])

theorem ratesPositiveListB_append (xs ys : List Node) :
    ratesPositiveListB (xs ++ ys) = (ratesPositiveListB xs && ratesPositiveListB ys) := by
  induction xs with
  | nil => simp [ratesPositiveListB]
  | cons x rest ih => simp [ratesPositiveListB, ih, Bool.and_assoc]

theorem consistentChildrenB_append (xs ys : List Node) (rcp : Recipe) (q : ℚ) :
    consistentChildrenB (xs ++ ys) rcp q =
      (consistentChildrenB xs rcp q && consistentChildrenB ys rcp q) := by
  induction xs with
  | nil => simp [consistentChildrenB]
  | cons x rest ih =>
    rw [List.cons_append, consistentChildrenB, consistentChildrenB, ih]
    rw [Bool.and_assoc, Bool.and_assoc, Bool.and_assoc]

theorem scaleChildrenByProduct_ok (cs : List Node) :
    ∀ mRcp mQty cs2, ratesPositiveListB cs = true →
      scaleChildrenByProduct cs mRcp mQty = (cs2, none) →
      ratesPositiveListB cs2 = true ∧ consistentChildrenB cs2 mRcp mQty = true :=
  scaleChildren_ok_of cs (fun c _ => scaleByProduct_ok c)

theorem scaleChildrenByProduct_fix (cs : List Node) :
    ∀ mRcp mQty, ratesPositiveListB cs = true →
      consistentChildrenB cs mRcp mQty = true →
      scaleChildrenByProduct cs mRcp mQty = (cs, none) :=
  scaleChildren_fix_of cs (fun c _ => scaleByProduct_fix c)

theorem scaleChildrenByProduct_names (cs : List Node) :
    ∀ mRcp mQty,
      productNamesList ((scaleChildrenByProduct cs mRcp mQty).1) = productNamesList cs :=
  scaleChildren_names_of cs (fun c _ => scaleByProduct_names c)

theorem scaleInChildren_none (cs : List Node) :
    ∀ g r, scaleInChildren cs g r = none ↔ ¬ g ∈ productNamesList cs :=
  scaleInChildren_none_of cs (fun c _ => scaleInSubtree_none_iff c)

theorem scaleInChildren_decomp {cs : List Node} {g : String} {r : ℚ}
    {pre : List Node} {c2 : Node} {post : List Node} {e : Option ScaleError}
    (h : scaleInChildren cs g r = some (pre, c2, post, e)) :
    ∃ c, cs = pre ++ c :: post ∧ scaleInSubtree c g r = some (c2, e) ∧
      ∀ x ∈ pre, scaleInSubtree x g r = none := by
  induction cs generalizing pre with
  | nil => rw [scaleInChildren] at h; cases h
  | cons c rest ih =>
    rw [scaleInChildren] at h
    rcases h1 : scaleInSubtree c g r with _ | ⟨c3, e3⟩
    · rw [h1] at h
      rcases h2 : scaleInChildren rest g r with _ | ⟨pre3, c4, post3, e4⟩
      · rw [h2] at h; cases h
      · rw [h2] at h
        simp only [Option.some.injEq, Prod.mk.injEq] at h
        obtain ⟨h5, h6, h7, h8⟩ := h
        subst h5; subst h6; subst h7; subst h8
        obtain ⟨c5, hcs, hsub, hpre⟩ := ih h2
        refine ⟨c5, by simp [hcs], hsub, ?_⟩
        intro x hx
        rcases List.mem_cons.mp hx with he | hm
        · subst he; exact h1
        · exact hpre x hm
    · rw [h1] at h
      simp only [Option.some.injEq, Prod.mk.injEq] at h
      obtain ⟨h5, h6, h7, h8⟩ := h
      subst h5; subst h6; subst h7; subst h8
      exact ⟨c, rfl, h1, fun x hx => absurd hx (List.not_mem_nil x)⟩

theorem scaleInChildren_recomp (pre : List Node) (c : Node) (post : List Node)
    (g : String) (r : ℚ) {c2 : Node} {e : Option ScaleError}
    (hpre : ∀ x ∈ pre, scaleInSubtree x g r = none)
    (hc : scaleInSubtree c g r = some (c2, e)) :
    scaleInChildren (pre ++ c :: post) g r = some (pre, c2, post, e) := by
  induction pre with
  | nil => rw [List.nil_append, scaleInChildren, hc]
  | cons p ps ih =>
    rw [List.cons_append, scaleInChildren, hpre p (List.mem_cons_self p ps),
      ih (fun x hx => hpre x (List.mem_cons_of_mem p hx))]

theorem scaleInSubtree_ok : ∀ t : Node, SubOK t := by
  intro t
  induction t using nodeMemRec with
  | h rcp q cs ih =>
    intro g r t2 hpos heq
    have hpos0 := hpos
    simp only [ratesPositiveB, Bool.and_eq_true, decide_eq_true_eq] at hpos
    obtain ⟨⟨hrate, hinputs⟩, hlist⟩ := hpos
    by_cases hg : (Recipe.product rcp).name = g
    · rw [scaleInSubtree, if_pos hg] at heq
      simp only [] at heq
      rcases hsc : scaleChildrenByProduct cs rcp (r / (Recipe.product rcp).quantity)
        with ⟨cs2, e⟩
      rw [hsc] at heq
      simp only [Option.some.injEq, Prod.mk.injEq] at heq
      obtain ⟨h3, h4⟩ := heq
      subst h4
      obtain ⟨hpos2, hcons2⟩ := scaleChildrenByProduct_ok cs rcp _ cs2 hlist hsc
      subst h3
      refine ⟨rfl, ?_, ?_⟩
      · simp only [ratesPositiveB, Bool.and_eq_true, decide_eq_true_eq]
        exact ⟨⟨hrate, hinputs⟩, hpos2⟩
      · simpa [consistentB] using hcons2
    · rw [scaleInSubtree, if_neg hg] at heq
      split at heq
      · cases heq
      · simp at heq
      · rename_i pre c2 post h1
        split at heq
        · simp at heq
        · rename_i ing hf
          simp only [] at heq
          split at heq
          · simp at heq
          · rename_i pre2 h2
            rcases h3 : scaleChildrenByProduct post rcp
                ((Recipe.product c2.recipe).quantity * c2.quantity / ing.quantity)
              with ⟨post2, e2⟩
            rw [h3] at heq
            simp only [Option.some.injEq, Prod.mk.injEq] at heq
            obtain ⟨h4, h5⟩ := heq
            subst h5
            obtain ⟨c, hcs, hsub, hpre⟩ := scaleInChildren_decomp h1
            subst hcs
            rw [ratesPositiveListB_append, Bool.and_eq_true] at hlist
            obtain ⟨hlpre, hlrest⟩ := hlist
            rw [ratesPositiveListB, Bool.and_eq_true] at hlrest
            obtain ⟨hlc, hlpost⟩ := hlrest
            obtain ⟨hrec2, hpos2, hcons2⟩ := ih c (by simp) g r c2 hlc hsub
            obtain ⟨hppre, hcpre⟩ := scaleChildrenByProduct_ok pre rcp _ pre2 hlpre h2
            obtain ⟨hppost, hcpost⟩ := scaleChildrenByProduct_ok post rcp _ post2 hlpost h3
            obtain ⟨hingmem, _⟩ := findIngredient_mem hf
            have hingpos : 0 < ing.quantity := by
              have hall : ∀ i ∈ rcp.inputs, 0 < i.quantity := by
                simpa [List.all_eq_true] using hinputs
              exact hall ing hingmem
            have hingne : ing.quantity ≠ 0 := ne_of_gt hingpos
            subst h4
            refine ⟨rfl, ?_, ?_⟩
            · simp only [ratesPositiveB, Bool.and_eq_true, decide_eq_true_eq]
              refine ⟨⟨hrate, hinputs⟩, ?_⟩
              rw [ratesPositiveListB_append, Bool.and_eq_true]
              refine ⟨hppre, ?_⟩
              rw [ratesPositiveListB, Bool.and_eq_true]
              exact ⟨hpos2, hppost⟩
            · simp only [consistentB]
              rw [consistentChildrenB_append, Bool.and_eq_true]
              refine ⟨hcpre, ?_⟩
              rw [consistentChildrenB, hf]
              have heq2 : c2.quantity * (Recipe.product c2.recipe).quantity =
                  (Recipe.product c2.recipe).quantity * c2.quantity / ing.quantity
                    * ing.quantity := by
                rw [div_mul_cancel₀ _ hingne, mul_comm]
              simp [heq2, hcons2, hcpost]

theorem mem_productNamesList (g : String) :
    ∀ l : List Node, g ∈ productNamesList l ↔ ∃ x ∈ l, g ∈ productNames x := by
  intro l
  induction l with
  | nil => simp [productNamesList]
  | cons c rest ih => simp [productNamesList, ih]

theorem findNodeInChildren_none_of (cs : List Node) (H : ∀ c ∈ cs, FindNoneOK c) :
    ∀ g, findNodeInChildren cs g = none ↔ ¬ g ∈ productNamesList cs := by
  induction cs with
  | nil => intro g; simp [findNodeInChildren, productNamesList]
  | cons c rest ih =>
    intro g
    rw [findNodeInChildren]
    rcases h1 : findNodeByProduct c g with _ | a
    · have hc : ¬ g ∈ productNames c := (H c (List.mem_cons_self c rest) g).mp h1
      rw [ih (fun x hx => H x (List.mem_cons_of_mem c hx)) g]
      simp [productNamesList, hc]
    · have hc : g ∈ productNames c := by
        by_contra hnc
        rw [← H c (List.mem_cons_self c rest) g] at hnc
        rw [h1] at hnc
        cases hnc
      simp [productNamesList, hc]

theorem findNodeByProduct_none_iff : ∀ t : Node, FindNoneOK t := by
  intro t
  induction t using nodeMemRec with
  | h rcp q cs ih =>
    intro g
    by_cases hg : (Recipe.product rcp).name = g
    · simp [findNodeByProduct, hg, productNames]
    · rw [findNodeByProduct, if_neg hg, findNodeInChildren_none_of cs ih g]
      constructor
      · intro h hmem
        rcases (by simpa [productNames] using hmem :
            g = (Recipe.product rcp).name ∨ g ∈ productNamesList cs) with he | hm
        · exact hg he.symm
        · exact h hm
      · intro h hm
        exact h (by simp [productNames, hm])

theorem findNodeInChildren_skip (xs ys : List Node) (g : String)
    (h : ∀ x ∈ xs, findNodeByProduct x g = none) :
    findNodeInChildren (xs ++ ys) g = findNodeInChildren ys g := by
  induction xs with
  | nil => rw [List.nil_append]
  | cons x rest ih =>
    rw [List.cons_append, findNodeInChildren, h x (List.mem_cons_self x rest),
      ih (fun y hy => h y (List.mem_cons_of_mem x hy))]

theorem findNode_none_of_scale_none {x : Node} {g : String} {r : ℚ}
    (h : scaleInSubtree x g r = none) : findNodeByProduct x g = none :=
  (findNodeByProduct_none_iff x g).mpr ((scaleInSubtree_none_iff x g r).mp h)

theorem scaleInSubtree_anchor : ∀ t : Node, AnchorOK t := by
  intro t
  induction t using nodeMemRec with
  | h rcp q cs ih =>
    intro g r t2 e heq
    by_cases hg : (Recipe.product rcp).name = g
    · rw [scaleInSubtree, if_pos hg] at heq
      simp only [] at heq
      rcases hsc : scaleChildrenByProduct cs rcp (r / (Recipe.product rcp).quantity)
        with ⟨cs2, e1⟩
      rw [hsc] at heq
      simp only [Option.some.injEq, Prod.mk.injEq] at heq
      obtain ⟨h3, h4⟩ := heq
      subst h3
      exact ⟨_, by rw [findNodeByProduct, if_pos hg], by simp⟩
    · rw [scaleInSubtree, if_neg hg] at heq
      split at heq
      · cases heq
      · rename_i pre c2 post err h1
        simp only [Option.some.injEq, Prod.mk.injEq] at heq
        obtain ⟨h3, h4⟩ := heq
        subst h3
        obtain ⟨c, hcs, hsub, hpre⟩ := scaleInChildren_decomp h1
        obtain ⟨a, hfa, hqa⟩ := ih c (by rw [hcs]; simp) g r c2 (some err) hsub
        refine ⟨a, ?_, hqa⟩
        rw [findNodeByProduct, if_neg hg,
          findNodeInChildren_skip pre (c2 :: post) g
            (fun x hx => findNode_none_of_scale_none (hpre x hx)),
          findNodeInChildren, hfa]
      · rename_i pre c2 post h1
        obtain ⟨c, hcs, hsub, hpre⟩ := scaleInChildren_decomp h1
        obtain ⟨a, hfa, hqa⟩ := ih c (by rw [hcs]; simp) g r c2 none hsub
        have hprefind : ∀ x ∈ pre, findNodeByProduct x g = none :=
          fun x hx => findNode_none_of_scale_none (hpre x hx)
        have hprenames : ¬ g ∈ productNamesList pre := by
          rw [← scaleInChildren_none pre g r]
          rcases h2 : scaleInChildren pre g r with _ | ⟨pre3, c4, post3, e4⟩
          · rfl
          · obtain ⟨c5, hcs5, hsub5, _⟩ := scaleInChildren_decomp h2
            have : scaleInSubtree c5 g r = none := hpre c5 (by rw [hcs5]; simp)
            rw [this] at hsub5
            cases hsub5
        split at heq
        · simp only [Option.some.injEq, Prod.mk.injEq] at heq
          obtain ⟨h3, h4⟩ := heq
          subst h3
          refine ⟨a, ?_, hqa⟩
          rw [findNodeByProduct, if_neg hg,
            findNodeInChildren_skip pre (c2 :: post) g hprefind,
            findNodeInChildren, hfa]
        · rename_i ing hf
          simp only [] at heq
          split at heq
          · rename_i pre2 err h2
            simp only [Option.some.injEq, Prod.mk.injEq] at heq
            obtain ⟨h3, h4⟩ := heq
            subst h3
            have hnames2 : ¬ g ∈ productNamesList pre2 := by
              have h5 := scaleChildrenByProduct_names pre rcp
                ((Recipe.product c2.recipe).quantity * c2.quantity / ing.quantity)
              rw [h2] at h5
              simpa [h5] using hprenames
            have hfind2 : ∀ x ∈ pre2, findNodeByProduct x g = none := by
              intro x hx
              rw [findNodeByProduct_none_iff x g]
              intro hmem
              exact hnames2 ((mem_productNamesList g pre2).mpr ⟨x, hx, hmem⟩)
            refine ⟨a, ?_, hqa⟩
            rw [findNodeByProduct, if_neg hg,
              findNodeInChildren_skip pre2 (c2 :: post) g hfind2,
              findNodeInChildren, hfa]
          · rename_i pre2 h2
            rcases h3 : scaleChildrenByProduct post rcp
                ((Recipe.product c2.recipe).quantity * c2.quantity / ing.quantity)
              with ⟨post2, e2⟩
            rw [h3] at heq
            simp only [Option.some.injEq, Prod.mk.injEq] at heq
            obtain ⟨h4, h5⟩ := heq
            subst h4
            have hnames2 : ¬ g ∈ productNamesList pre2 := by
              have h6 := scaleChildrenByProduct_names pre rcp
                ((Recipe.product c2.recipe).quantity * c2.quantity / ing.quantity)
              rw [h2] at h6
              simpa [h6] using hprenames
            have hfind2 : ∀ x ∈ pre2, findNodeByProduct x g = none := by
              intro x hx
              rw [findNodeByProduct_none_iff x g]
              intro hmem
              exact hnames2 ((mem_productNamesList g pre2).mpr ⟨x, hx, hmem⟩)
            refine ⟨a, ?_, hqa⟩
            rw [findNodeByProduct, if_neg hg,
              findNodeInChildren_skip pre2 (c2 :: post2) g hfind2,
              findNodeInChildren, hfa]

theorem scaleInSubtree_idem : ∀ t : Node, IdemOK t := by
  intro t
  induction t using nodeMemRec with
  | h rcp q cs ih =>
    intro g r u hpos heq
    simp only [ratesPositiveB, Bool.and_eq_true, decide_eq_true_eq] at hpos
    obtain ⟨⟨hrate, hinputs⟩, hlist⟩ := hpos
    by_cases hg : (Recipe.product rcp).name = g
    · rw [scaleInSubtree, if_pos hg] at heq
      simp only [] at heq
      rcases hsc : scaleChildrenByProduct cs rcp (r / (Recipe.product rcp).quantity)
        with ⟨cs2, e1⟩
      rw [hsc] at heq
      simp only [Option.some.injEq, Prod.mk.injEq] at heq
      obtain ⟨h3, h4⟩ := heq
      subst h4
      obtain ⟨hpos2, hcons2⟩ := scaleChildrenByProduct_ok cs rcp _ cs2 hlist hsc
      subst h3
      rw [scaleInSubtree, if_pos hg]
      simp only [scaleChildrenByProduct_fix cs2 rcp (r / (Recipe.product rcp).quantity)
        hpos2 hcons2]
    · rw [scaleInSubtree, if_neg hg] at heq
      split at heq
      · cases heq
      · simp at heq
      · rename_i pre c2 post h1
        split at heq
        · simp at heq
        · rename_i ing hf
          simp only [] at heq
          split at heq
          · simp at heq
          · rename_i pre2 h2
            rcases h3 : scaleChildrenByProduct post rcp
                ((Recipe.product c2.recipe).quantity * c2.quantity / ing.quantity)
              with ⟨post2, e2⟩
            rw [h3] at heq
            simp only [Option.some.injEq, Prod.mk.injEq] at heq
            obtain ⟨h4, h5⟩ := heq
            subst h5
            obtain ⟨c, hcs, hsub, hpre⟩ := scaleInChildren_decomp h1
            subst hcs
            rw [ratesPositiveListB_append, Bool.and_eq_true] at hlist
            obtain ⟨hlpre, hlrest⟩ := hlist
            rw [ratesPositiveListB, Bool.and_eq_true] at hlrest
            obtain ⟨hlc, hlpost⟩ := hlrest
            have hidc : scaleInSubtree c2 g r = some (c2, none) :=
              ih c (by simp) g r c2 hlc hsub
            obtain ⟨hppre, hcpre⟩ := scaleChildrenByProduct_ok pre rcp _ pre2 hlpre h2
            obtain ⟨hppost, hcpost⟩ := scaleChildrenByProduct_ok post rcp _ post2 hlpost h3
            have hprenames : ¬ g ∈ productNamesList pre := by
              rw [← scaleInChildren_none pre g r]
              rcases h6 : scaleInChildren pre g r with _ | ⟨pre3, c4, post3, e4⟩
              · rfl
              · obtain ⟨c5, hcs5, hsub5, _⟩ := scaleInChildren_decomp h6
                have h7 : scaleInSubtree c5 g r = none := hpre c5 (by rw [hcs5]; simp)
                rw [h7] at hsub5
                cases hsub5
            have hnames2 : ¬ g ∈ productNamesList pre2 := by
              have h6 := scaleChildrenByProduct_names pre rcp
                ((Recipe.product c2.recipe).quantity * c2.quantity / ing.quantity)
              rw [h2] at h6
              simpa [h6] using hprenames
            have hpre2none : ∀ x ∈ pre2, scaleInSubtree x g r = none := by
              intro x hx
              rw [scaleInSubtree_none_iff x g r]
              intro hmem
              exact hnames2 ((mem_productNamesList g pre2).mpr ⟨x, hx, hmem⟩)
            subst h4
            rw [scaleInSubtree, if_neg hg,
              scaleInChildren_recomp pre2 c2 post2 g r hpre2none hidc]
            simp only [hf,
              scaleChildrenByProduct_fix pre2 rcp _ hppre hcpre,
              scaleChildrenByProduct_fix post2 rcp _ hppost hcpost]

theorem consistentChildrenB_mem {cs : List Node} {rcp : Recipe} {q : ℚ}
    (h : consistentChildrenB cs rcp q = true) :
    ∀ c ∈ cs, (∃ ing, findIngredient rcp.inputs (Recipe.product c.recipe).name = some ing ∧
      c.quantity * (Recipe.product c.recipe).quantity = q * ing.quantity) ∧
      consistentB c = true := by
  induction cs with
  | nil => intro c hc; cases hc
  | cons c0 rest ih =>
    rw [consistentChildrenB] at h
    simp only [Bool.and_eq_true] at h
    obtain ⟨⟨hhead, hconsc⟩, hconsr⟩ := h
    intro c hc
    rcases List.mem_cons.mp hc with he | hm
    · subst he
      refine ⟨?_, hconsc⟩
      rcases hfind : findIngredient rcp.inputs (Recipe.product c.recipe).name with _ | ing
      · rw [hfind] at hhead; cases hhead
      · rw [hfind] at hhead
        exact ⟨ing, rfl, by simpa using hhead⟩
    · exact ih hconsr c hm

theorem mem_preOrderList (p : Node) :
    ∀ l : List Node, p ∈ preOrderList l ↔ ∃ c ∈ l, p ∈ preOrderNodes c := by
  intro l
  induction l with
  | nil => simp [preOrderList]
  | cons c rest ih => simp [preOrderList, ih]

theorem consistentB_preOrder :
    ∀ t : Node, consistentB t = true →
      ∀ p ∈ preOrderNodes t, ∀ c ∈ p.children,
        ∃ ing, findIngredient p.recipe.inputs (Recipe.product c.recipe).name = some ing ∧
          c.quantity * (Recipe.product c.recipe).quantity = p.quantity * ing.quantity := by
  intro t
  induction t using nodeMemRec with
  | h rcp q cs ih =>
    intro hcons p hp c hc
    have hcc : consistentChildrenB cs rcp q = true := by
      simpa [consistentB] using hcons
    rw [preOrderNodes] at hp
    rcases List.mem_cons.mp hp with he | hm
    · subst he
      simp only [Node.children_mk] at hc
      obtain ⟨⟨ing, hfind, heqn⟩, _⟩ := consistentChildrenB_mem hcc c hc
      exact ⟨ing, hfind, heqn⟩
    · obtain ⟨c0, hc0, hpc0⟩ := (mem_preOrderList p cs).mp hm
      exact ih c0 hc0 ((consistentChildrenB_mem hcc c0 hc0).2) p hpc0 c hc

theorem scaleRootFix (rcp : Recipe) (q : ℚ) (cs : List Node)
    (hpos : ratesPositiveB (.mk rcp q cs) = true)
    (hcons : consistentB (.mk rcp q cs) = true) :
    scaleInSubtree (.mk rcp q cs) (Recipe.product rcp).name
      (q * (Recipe.product rcp).quantity) = some (.mk rcp q cs, none) := by
  simp only [ratesPositiveB, Bool.and_eq_true, decide_eq_true_eq] at hpos
  obtain ⟨⟨hrate, hinputs⟩, hlist⟩ := hpos
  have hcc : consistentChildrenB cs rcp q = true := by
    simpa [consistentB] using hcons
  have hr : (Recipe.product rcp).quantity ≠ 0 := ne_of_gt hrate
  rw [scaleInSubtree, if_pos rfl]
  simp only [mul_div_cancel_right₀ q hr,
    scaleChildrenByProduct_fix cs rcp q hlist hcc]

theorem scaleChildren_err_of (cs : List Node) (H : ∀ c ∈ cs, DownErrOK c) :
    ∀ mRcp mQty, (scaleChildrenByProduct cs mRcp mQty).2 ≠ some ScaleError.anchorMissing := by
  induction cs with
  | nil => intro mRcp mQty; simp [scaleChildrenByProduct]
  | cons c rest ih =>
    intro mRcp mQty
    rw [scaleChildrenByProduct]
    rcases h1 : scaleByProduct c mRcp mQty with ⟨c2, e1⟩
    cases e1 with
    | some e =>
      have := H c (List.mem_cons_self c rest) mRcp mQty
      rw [h1] at this
      simpa using this
    | none =>
      rcases h2 : scaleChildrenByProduct rest mRcp mQty with ⟨rest2, e2⟩
      have := ih (fun x hx => H x (List.mem_cons_of_mem c hx)) mRcp mQty
      rw [h2] at this
      simpa using this

theorem scaleByProduct_err : ∀ c : Node, DownErrOK c := by
  intro c
  induction c using nodeMemRec with
  | h rcp q cs ih =>
    intro mRcp mQty
    simp only [scaleByProduct]
    rcases hfind : findIngredient mRcp.inputs (Recipe.product rcp).name with _ | ing
    · simp
    · rcases hsc : scaleChildrenByProduct cs rcp
          (ing.quantity * mQty / (Recipe.product rcp).quantity) with ⟨cs2, e⟩
      have := scaleChildren_err_of cs ih rcp
        (ing.quantity * mQty / (Recipe.product rcp).quantity)
      rw [hsc] at this
      simpa [hsc] using this

theorem scaleInSubtree_err : ∀ t : Node, SubErrOK t := by
  intro t
  induction t using nodeMemRec with
  | h rcp q cs ih =>
    intro g r t2 e heq
    by_cases hg : (Recipe.product rcp).name = g
    · rw [scaleInSubtree, if_pos hg] at heq
      simp only [] at heq
      rcases hsc : scaleChildrenByProduct cs rcp (r / (Recipe.product rcp).quantity)
        with ⟨cs2, e1⟩
      rw [hsc] at heq
      simp only [Option.some.injEq, Prod.mk.injEq] at heq
      obtain ⟨h3, h4⟩ := heq
      subst h4
      have := scaleChildren_err_of cs (fun x _ => scaleByProduct_err x) rcp
        (r / (Recipe.product rcp).quantity)
      rw [hsc] at this
      simpa using this
    · rw [scaleInSubtree, if_neg hg] at heq
      split at heq
      · cases heq
      · rename_i pre c2 post err h1
        simp only [Option.some.injEq, Prod.mk.injEq] at heq
        obtain ⟨h3, h4⟩ := heq
        subst h4
        obtain ⟨c, hcs, hsub, hpre⟩ := scaleInChildren_decomp h1
        exact ih c (by rw [hcs]; simp) g r c2 (some err) hsub
      · rename_i pre c2 post h1
        split at heq
        · simp only [Option.some.injEq, Prod.mk.injEq] at heq
          obtain ⟨h3, h4⟩ := heq
          subst h4
          simp
        · rename_i ing hf
          simp only [] at heq
          split at heq
          · rename_i pre2 err h2
            simp only [Option.some.injEq, Prod.mk.injEq] at heq
            obtain ⟨h3, h4⟩ := heq
            subst h4
            have := scaleChildren_err_of pre (fun x _ => scaleByProduct_err x) rcp
              ((Recipe.product c2.recipe).quantity * c2.quantity / ing.quantity)
            rw [h2] at this
            simpa using this
          · rename_i pre2 h2
            rcases h3 : scaleChildrenByProduct post rcp
                ((Recipe.product c2.recipe).quantity * c2.quantity / ing.quantity)
              with ⟨post2, e2⟩
            rw [h3] at heq
            simp only [Option.some.injEq, Prod.mk.injEq] at heq
            obtain ⟨h4, h5⟩ := heq
            subst h5
            have := scaleChildren_err_of post (fun x _ => scaleByProduct_err x) rcp
              ((Recipe.product c2.recipe).quantity * c2.quantity / ing.quantity)
            rw [h3] at this
            simpa using this

theorem findNodeInChildren_pre_of (cs : List Node) (H : ∀ c ∈ cs, FindPreOK c) :
    ∀ g, findNodeInChildren cs g =
      (preOrderList cs).find? (fun n => decide ((Recipe.product n.recipe).name = g)) := by
  induction cs with
  | nil => intro g; rfl
  | cons c rest ih =>
    intro g
    rw [findNodeInChildren, preOrderList, List.find?_append,
      ← H c (List.mem_cons_self c rest) g,
      ← ih (fun x hx => H x (List.mem_cons_of_mem c hx)) g]
    rcases h1 : findNodeByProduct c g with _ | a
    · simp
    · simp

theorem findNodeByProduct_pre : ∀ t : Node, FindPreOK t := by
  intro t
  induction t using nodeMemRec with
  | h rcp q cs ih =>
    intro g
    rw [findNodeByProduct, preOrderNodes, List.find?_cons]
    by_cases hg : (Recipe.product rcp).name = g
    · simp [hg]
    · simp [hg, findNodeInChildren_pre_of cs ih g]

/-- C1: after any successful scale(anchor, rate) call on a well-formed tree
(every non-root node's primary product name occurs among its parent recipe's
inputs) whose rates are strictly positive, every node `p` of the resulting
tree and every child `c` of `p` satisfy: c.instance_count x
c.recipe.outputs[0].rate equals p.instance_count x ingredient.rate, where
ingredient is the (first) entry of p.recipe.inputs whose name equals
c.recipe.outputs[0].name. -/
theorem scale_consistency (t : Node) (g : String) (r : ℚ) (t2 : Node)
    (_hwf : wellFormedB t = true) (hpos : ratesPositiveB t = true)
    (hscale : scale t g r = (t2, none)) :
    ∀ p ∈ preOrderNodes t2, ∀ c ∈ p.children,
      ∃ ing, findIngredient p.recipe.inputs (Recipe.product c.recipe).name = some ing ∧
        c.quantity * (Recipe.product c.recipe).quantity = p.quantity * ing.quantity := by
  rw [scale] at hscale
  rcases h : scaleInSubtree t g r with _ | ⟨t3, e⟩
  · rw [h] at hscale
    injection hscale with h1 h2
    cases h2
  · rw [h] at hscale
    injection hscale with h1 h2
    subst h1
    subst h2
    exact consistentB_preOrder t3 ((scaleInSubtree_ok t) g r t3 hpos h).2.2

/-- C1 witness: the spec's end-to-end example scaled to 25 Widgets per
minute: the Smelt Ore child at 5/3 instances feeds the Make Widget root at
5/2 instances through the Bar ingredient. -/
theorem scale_consistency_witness :
    ∃ ing, findIngredient makeWidget.inputs (Recipe.product smeltOre).name = some ing ∧
      (5/3 : ℚ) * (Recipe.product smeltOre).quantity = (5/2 : ℚ) * ing.quantity := by
  have h := scale_consistency widgetTree "Widget" 25
      (Node.mk makeWidget (5/2) [Node.mk smeltOre (5/3) []])
    (by norm_num [wellFormedB, wellFormedChildrenB, widgetTree, makeWidget, smeltOre,
      Recipe.product, findIngredient, List.find?])
    (by norm_num [ratesPositiveB, ratesPositiveListB, widgetTree, makeWidget, smeltOre,
      Recipe.product, List.all])
    (by norm_num [scale, scaleInSubtree, scaleChildrenByProduct, scaleByProduct,
      findIngredient, widgetTree, makeWidget, smeltOre, Recipe.product, List.find?])
  have h2 := h (Node.mk makeWidget (5/2) [Node.mk smeltOre (5/3) []])
    (by simp [preOrderNodes]) (Node.mk smeltOre (5/3) []) (by simp)
  simpa using h2

/-- C2: on a scale-consistent tree with positive rates, scaling at the root's
own good with the rate it currently realises changes nothing; and in general
re-applying a successful scale with the same anchor good and rate is a no-op
on the whole tree. -/
theorem scale_idempotent (t : Node) (g : String) (r : ℚ) :
    (consistentB t = true → ratesPositiveB t = true →
      scale t (Recipe.product t.recipe).name
        (t.quantity * (Recipe.product t.recipe).quantity) = (t, none)) ∧
    (∀ u, ratesPositiveB t = true → scale t g r = (u, none) → scale u g r = (u, none)) := by
  constructor
  · intro hcons hpos
    cases t with
    | mk rcp q cs =>
      rw [scale]
      simp only [Node.recipe_mk, Node.quantity_mk, scaleRootFix rcp q cs hpos hcons]
  · intro u hpos hs
    rw [scale] at hs
    rcases h : scaleInSubtree t g r with _ | ⟨t3, e⟩
    · rw [h] at hs
      injection hs with h1 h2
      cases h2
    · rw [h] at hs
      injection hs with h1 h2
      subst h1
      subst h2
      rw [scale, scaleInSubtree_idem t g r t3 hpos h]

/-- C2 witness: the consistent two-node example re-scaled at its current root
rate of 10 Widgets per minute. -/
theorem scale_idempotent_witness :
    scale (Node.mk makeWidget 1 [Node.mk smeltOre (2/3) []]) "Widget" 10 =
      (Node.mk makeWidget 1 [Node.mk smeltOre (2/3) []], none) := by
  have h := (scale_idempotent (Node.mk makeWidget 1 [Node.mk smeltOre (2/3) []])
      "Widget" 10).1
    (by norm_num [consistentB, consistentChildrenB, makeWidget, smeltOre,
      Recipe.product, findIngredient, List.find?])
    (by norm_num [ratesPositiveB, ratesPositiveListB, makeWidget, smeltOre,
      Recipe.product, List.all])
  simpa [makeWidget, smeltOre, Recipe.product] using h

/-- C4: find_node returns the first matching node in pre-order; scale fails
with the missing-anchor error exactly when no node in the tree produces the
anchor good, and that error is the propagated lookup failure, never raised
once an anchor exists. -/
theorem scale_anchor_notFound (t : Node) (g : String) (r : ℚ) :
    (findNodeByProduct t g =
      (preOrderNodes t).find? (fun n => decide ((Recipe.product n.recipe).name = g))) ∧
    (findNodeByProduct t g = none → scale t g r = (t, some ScaleError.anchorMissing)) ∧
    (∀ t2 e, scale t g r = (t2, e) →
      (e = some ScaleError.anchorMissing ↔ findNodeByProduct t g = none)) := by
  refine ⟨findNodeByProduct_pre t g, ?_, ?_⟩
  · intro h
    have h2 : scaleInSubtree t g r = none :=
      (scaleInSubtree_none_iff t g r).mpr ((findNodeByProduct_none_iff t g).mp h)
    rw [scale, h2]
  · intro t2 e hs
    rw [scale] at hs
    rcases h : scaleInSubtree t g r with _ | ⟨t3, e3⟩
    · rw [h] at hs
      injection hs with h1 h2
      subst h2
      constructor
      · intro _
        exact (findNodeByProduct_none_iff t g).mpr ((scaleInSubtree_none_iff t g r).mp h)
      · intro _
        rfl
    · rw [h] at hs
      injection hs with h1 h2
      subst h2
      constructor
      · intro he
        exact absurd he (scaleInSubtree_err t g r t3 e3 h)
      · intro hfind
        have h4 : scaleInSubtree t g r = none :=
          (scaleInSubtree_none_iff t g r).mpr ((findNodeByProduct_none_iff t g).mp hfind)
        rw [h4] at h
        cases h

/-- C4 witness: no node of the example tree produces "Nope", and scale fails
with the missing-anchor error, tree untouched. -/
theorem scale_anchor_notFound_witness :
    scale widgetTree "Nope" 5 = (widgetTree, some ScaleError.anchorMissing) :=
  (scale_anchor_notFound widgetTree "Nope" 5).2.1
    (by simp [findNodeByProduct, findNodeInChildren, widgetTree, makeWidget,
      smeltOre, Recipe.product])

/-- C5 counterexample: scaling orphanTree at its root fails with the
ValueError, yet the root's instance count has already been rewritten - the
operation is not failure-atomic. -/
theorem scale_not_atomic_cex :
    (scale orphanTree "Widget" 25).2 = some ScaleError.ingredientMissing ∧
    (scale orphanTree "Widget" 25).1.quantity ≠ orphanTree.quantity := by
  simp [scale, scaleInSubtree, scaleChildrenByProduct, scaleByProduct, findIngredient,
    orphanTree, makeWidget, slagRecipe, Recipe.product, List.find?]
  norm_num

/-- C5 amended: scale is not failure-atomic; once the anchor is located its
instance count is written before any ingredient-correspondence check, so
whether or not the operation then fails, the first pre-order producer of the
anchor good in the resulting tree carries quantity target_rate / its product
rate, and on failure the writes already made persist. -/
theorem scale_committed_write (t : Node) (g : String) (r : ℚ)
    (h : findNodeByProduct t g ≠ none) :
    ∃ a, findNodeByProduct (scale t g r).1 g = some a ∧
      a.quantity = r / (Recipe.product a.recipe).quantity := by
  rcases hs : scaleInSubtree t g r with _ | ⟨t3, e⟩
  · exact absurd ((findNodeByProduct_none_iff t g).mpr
      ((scaleInSubtree_none_iff t g r).mp hs)) h
  · have h2 := scaleInSubtree_anchor t g r t3 e hs
    rw [scale, hs]
    exact h2

/-- C5 amended witness: on orphanTree the failing scale still committed the
root write of 25 / 10. -/
theorem scale_committed_write_witness :
    ∃ a, findNodeByProduct (scale orphanTree "Widget" 25).1 "Widget" = some a ∧
      a.quantity = 25 / (Recipe.product a.recipe).quantity :=
  scale_committed_write orphanTree "Widget" 25
    (by simp [findNodeByProduct, findNodeInChildren, orphanTree, makeWidget,
      slagRecipe, Recipe.product])

/-- C3 corrected: the catalog query classifies a recipe as a consumer when the
good appears among its inputs and as a producer when the good is the name of
the primary product outputs[0] only - the byproduct outputs[1] is never
consulted; the any role is the union of the two, recipes with an excluded
machine are omitted regardless of role, and results keep catalog insertion
order: the query equals the order-preserving filter by that predicate. -/
theorem getRecipesByPart_role_filter (recipes : List Recipe) (part : String)
    (role : Role) (excl : List String) :
    getRecipesByPart recipes part role excl =
      recipes.filter (fun r => !(r.machine ∈ excl : Bool) && roleMatches r part role) :=
  getRecipesByPart_eq_filter recipes part role excl

/-- C3 counterexample: "Gas" appears among slagRecipe's outputs (as the
byproduct), yet the query does not classify the recipe as a producer of
"Gas", for the producer role or the any role. -/
theorem getRecipesByPart_byproduct_cex :
    "Gas" ∈ slagRecipe.outputs.map Ingredient.name ∧
    getRecipesByPart [slagRecipe] "Gas" Role.product [] = [] ∧
    getRecipesByPart [slagRecipe] "Gas" Role.anyPart [] = [] := by
  refine ⟨by simp [slagRecipe], ?_, ?_⟩ <;>
    simp [getRecipesByPart, slagRecipe, Recipe.product]

theorem foldlMax_spec (l : List Recipe) (r : Recipe) :
    (l.foldl (fun best x => if best.product.quantity < x.product.quantity then x else best) r)
        ∈ r :: l ∧
      ∀ x ∈ r :: l, x.product.quantity ≤
        (l.foldl (fun best x =>
          if best.product.quantity < x.product.quantity then x else best) r).product.quantity := by
  induction l generalizing r with
  | nil => simp
  | cons a t ih =>
    rw [List.foldl_cons]
    have hbr : r.product.quantity ≤
        (if r.product.quantity < a.product.quantity then a else r).product.quantity := by
      split
      · exact le_of_lt (by assumption)
      · exact le_refl _
    have hba : a.product.quantity ≤
        (if r.product.quantity < a.product.quantity then a else r).product.quantity := by
      split
      · exact le_refl _
      · exact le_of_not_lt (by assumption)
    have hbmem : (if r.product.quantity < a.product.quantity then a else r) = a ∨
        (if r.product.quantity < a.product.quantity then a else r) = r := by
      split
      · exact Or.inl rfl
      · exact Or.inr rfl
    obtain ⟨hmem, hle⟩ := ih (if r.product.quantity < a.product.quantity then a else r)
    constructor
    · rcases List.mem_cons.mp hmem with he | hm
      · rcases hbmem with h1 | h1 <;> rw [he, h1] <;> simp
      · simp [hm]
    · intro x hx
      rcases List.mem_cons.mp hx with rfl | hm
      · exact le_trans hbr (hle _ (List.mem_cons_self _ t))
      · rcases List.mem_cons.mp hm with rfl | hm2
        · exact le_trans hba (hle _ (List.mem_cons_self _ t))
        · exact hle x (List.mem_cons_of_mem _ hm2)

theorem maxOutput_spec (options : List Recipe) (h : options ≠ []) :
    ∃ r, maxOutput options = some r ∧ r ∈ options ∧
      ∀ x ∈ options, x.product.quantity ≤ r.product.quantity := by
  cases options with
  | nil => exact absurd rfl h
  | cons a t =>
    obtain ⟨hmem, hle⟩ := foldlMax_spec t a
    exact ⟨_, rfl, hmem, hle⟩

/-- C8: for a non-empty candidate list, preferred_names returns a recipe of
maximal primary-product rate among the allow-listed candidates when any
exist, and otherwise among all candidates. -/
theorem preferredNames_max (options : List Recipe) (names : List String)
    (h : options ≠ []) :
    ∃ r, preferredNames options names = some r ∧
      ((options.filter (fun x => x.name ∈ names) ≠ [] →
        r ∈ options.filter (fun x => x.name ∈ names) ∧
        ∀ x ∈ options.filter (fun x => x.name ∈ names),
          x.product.quantity ≤ r.product.quantity) ∧
       (options.filter (fun x => x.name ∈ names) = [] →
        r ∈ options ∧ ∀ x ∈ options, x.product.quantity ≤ r.product.quantity)) := by
  by_cases hf : options.filter (fun x => (x.name ∈ names : Bool)) = []
  · obtain ⟨r, hmax, hmem, hle⟩ := maxOutput_spec options h
    refine ⟨r, ?_, fun hne => absurd hf hne, fun _ => ⟨hmem, hle⟩⟩
    simpa [preferredNames, hf] using hmax
  · obtain ⟨r, hmax, hmem, hle⟩ :=
      maxOutput_spec (options.filter (fun x => (x.name ∈ names : Bool))) hf
    refine ⟨r, ?_, fun _ => ⟨hmem, hle⟩, fun he => absurd he hf⟩
    simpa [preferredNames, hf] using hmax

/-- C8 witness: between Smelt Ore (rate 30) and Make Widget (rate 10), the
allow-list naming only Make Widget selects it; with an empty allow-list the
fallback picks the overall maximum Smelt Ore. -/
theorem preferredNames_max_witness :
    ∃ r, preferredNames [smeltOre, makeWidget] ["Make Widget"] = some r ∧
      (([smeltOre, makeWidget].filter
          (fun x => x.name ∈ (["Make Widget"] : List String)) ≠ [] →
        r ∈ [smeltOre, makeWidget].filter
          (fun x => x.name ∈ (["Make Widget"] : List String)) ∧
        ∀ x ∈ [smeltOre, makeWidget].filter
            (fun x => x.name ∈ (["Make Widget"] : List String)),
          x.product.quantity ≤ r.product.quantity) ∧
       ([smeltOre, makeWidget].filter
          (fun x => x.name ∈ (["Make Widget"] : List String)) = [] →
        r ∈ [smeltOre, makeWidget] ∧
        ∀ x ∈ [smeltOre, makeWidget], x.product.quantity ≤ r.product.quantity)) :=
  preferredNames_max [smeltOre, makeWidget] ["Make Widget"] (by simp)

theorem tallyList_pre_of (cs : List Node) (H : ∀ c ∈ cs, TallyOK c) :
    ∀ m s, tallyList cs m s = m s +
      (((preOrderList cs).filter (fun n => decide (n.recipe.machine = s))).map
        (fun n => ⌈n.quantity⌉)).sum := by
  induction cs with
  | nil => intro m s; simp [tallyList, preOrderList]
  | cons c rest ih =>
    intro m s
    rw [tallyList, ih (fun x hx => H x (List.mem_cons_of_mem c hx)),
      H c (List.mem_cons_self c rest) m s, preOrderList, List.filter_append,
      List.map_append, List.sum_append]
    ring

theorem tallyAux_pre : ∀ t : Node, TallyOK t := by
  intro t
  induction t using nodeMemRec with
  | h rcp q cs ih =>
    intro m s
    rw [tallyAux, tallyList_pre_of cs ih, preOrderNodes, List.filter_cons]
    by_cases hs : rcp.machine = s
    · simp [hs]
      omega
    · have hs2 : ¬ s = rcp.machine := fun he => hs he.symm
      simp [hs, hs2]

/-- C9: tally_machines maps each machine type to the sum of
ceiling(instance_count) over exactly the nodes whose recipe runs on that
machine; for a machine type used by no node the count is 0, so the mapping
carries no further information. -/
theorem tallyMachines_correct (t : Node) (m : String) :
    tallyMachines t m =
      (((preOrderNodes t).filter (fun n => decide (n.recipe.machine = m))).map
        (fun n => ⌈n.quantity⌉)).sum := by
  have h := tallyAux_pre t (fun _ => 0) m
  simpa [tallyMachines] using h

theorem buildFactory_zero_depth (reg : List Recipe) (fitness : List Recipe → Recipe)
    (excl : List String) (node : Node) (products : List String) (fuel : Nat) :
    buildFactory reg fitness excl node products 0 fuel = (node, products) := by
  cases fuel with
  | zero => rw [buildFactory]
  | succ f =>
    cases node with
    | mk rcp q cs => simp [buildFactory]

/-- Negative depths (Python's unlimited sentinel -1 and everything it decays
to) are interchangeable: the depth counter never reaches 0 from below. -/
theorem buildFactory_neg_depth : ∀ (fuel : Nat) (reg : List Recipe)
    (fitness : List Recipe → Recipe) (excl : List String),
    (∀ node products (d d' : Int), d < 0 → d' < 0 →
      buildFactory reg fitness excl node products d fuel =
        buildFactory reg fitness excl node products d' fuel) ∧
    (∀ inputs products (d d' : Int), d < 0 → d' < 0 →
      buildChildren reg fitness excl inputs products d fuel =
        buildChildren reg fitness excl inputs products d' fuel) := by
  intro fuel
  induction fuel with
  | zero =>
    intro reg fitness excl
    constructor
    · intro node products d d' _ _
      rw [buildFactory, buildFactory]
    · intro inputs
      induction inputs with
      | nil => intro products d d' _ _; rw [buildChildren, buildChildren]
      | cons input rest ih =>
        intro products d d' hd hd'
        rw [buildChildren, buildChildren]
        rcases hopt : getRecipesByPart reg input.name .product excl with _ | ⟨o, os⟩
        · exact ih products d d' hd hd'
        · simp only [buildFactory]
          rw [ih products d d' hd hd']
  | succ f ihf =>
    intro reg fitness excl
    have hfac : ∀ node products (d d' : Int), d < 0 → d' < 0 →
        buildFactory reg fitness excl node products d (f + 1) =
          buildFactory reg fitness excl node products d' (f + 1) := by
      intro node products d d' hd hd'
      cases node with
      | mk rcp q cs =>
        rw [buildFactory, buildFactory]
        rw [if_neg (by omega : ¬ d = 0), if_neg (by omega : ¬ d' = 0)]
        by_cases hmem : (Recipe.product rcp).name ∈ products
        · rw [if_pos hmem, if_pos hmem]
        · rw [if_neg hmem, if_neg hmem,
            (ihf reg fitness excl).2 rcp.inputs ((Recipe.product rcp).name :: products)
              (d - 1) (d' - 1) (by omega) (by omega)]
    refine ⟨hfac, ?_⟩
    intro inputs
    induction inputs with
    | nil => intro products d d' _ _; rw [buildChildren, buildChildren]
    | cons input rest ih =>
      intro products d d' hd hd'
      rw [buildChildren, buildChildren]
      rcases hopt : getRecipesByPart reg input.name .product excl with _ | ⟨o, os⟩
      · exact ih products d d' hd hd'
      · simp only []
        rw [hfac (.mk (fitness (o :: os)) 1 []) products d d' hd hd']
        rcases hbf : buildFactory reg fitness excl (.mk (fitness (o :: os)) 1 [])
            products d' (f + 1) with ⟨child, products2⟩
        simp only []
        rw [ih products2 d d' hd hd']

theorem mem_expandedList (p : String) :
    ∀ l : List Node, p ∈ expandedList l ↔ ∃ c ∈ l, p ∈ expandedProducts c := by
  intro l
  induction l with
  | nil => simp [expandedList]
  | cons c rest ih => simp [expandedList, ih]

theorem expandedProducts_mk_nodup {rcp : Recipe} {q : ℚ} {cs : List Node}
    (h1 : (expandedList cs).Nodup)
    (h2 : ¬ (Recipe.product rcp).name ∈ expandedList cs) :
    (expandedProducts (.mk rcp q cs)).Nodup := by
  cases cs with
  | nil => simp [expandedProducts, expandedList]
  | cons c cs2 =>
    rw [expandedProducts]
    simp only [List.isEmpty_cons, Bool.false_eq_true, if_false, List.singleton_append,
      List.nodup_cons]
    exact ⟨h2, h1⟩

theorem expandedProducts_mk_mem {rcp : Recipe} {q : ℚ} {cs : List Node} {p : String}
    (h : p ∈ expandedProducts (.mk rcp q cs)) :
    p = (Recipe.product rcp).name ∨ p ∈ expandedList cs := by
  cases cs with
  | nil =>
    rw [expandedProducts] at h
    simp at h
    exact absurd h (by simp [expandedList])
  | cons c cs2 =>
    rw [expandedProducts] at h
    simp only [List.isEmpty_cons, Bool.false_eq_true, if_false, List.singleton_append,
      List.mem_cons] at h
    exact h

theorem buildChildren_expanded_of (reg : List Recipe) (fitness : List Recipe → Recipe)
    (excl : List String) (fuel : Nat) (HP : BuildPOK reg fitness excl fuel) :
    ∀ inputs products depth,
      products ⊆ (buildChildren reg fitness excl inputs products depth fuel).2 ∧
      (expandedList (buildChildren reg fitness excl inputs products depth fuel).1).Nodup ∧
      ∀ p ∈ expandedList (buildChildren reg fitness excl inputs products depth fuel).1,
        ¬ p ∈ products ∧ p ∈ (buildChildren reg fitness excl inputs products depth fuel).2 := by
  intro inputs
  induction inputs with
  | nil =>
    intro products depth
    rw [buildChildren]
    exact ⟨List.Subset.refl products, by simp [expandedList], by simp [expandedList]⟩
  | cons input rest ih =>
    intro products depth
    rw [buildChildren]
    rcases hopt : getRecipesByPart reg input.name .product excl with _ | ⟨o, os⟩
    · exact ih products depth
    · simp only []
      obtain ⟨hsub1, hnd1, hfresh1⟩ := HP (.mk (fitness (o :: os)) 1 []) products depth rfl
      obtain ⟨hsub2, hnd2, hfresh2⟩ :=
        ih ((buildFactory reg fitness excl (.mk (fitness (o :: os)) 1 [])
          products depth fuel).2) depth
      refine ⟨hsub1.trans hsub2, ?_, ?_⟩
      · rw [expandedList, List.nodup_append]
        refine ⟨hnd1, hnd2, ?_⟩
        intro p hp1 hp2
        exact (hfresh2 p hp2).1 ((hfresh1 p hp1).2)
      · intro p hp
        rw [expandedList, List.mem_append] at hp
        rcases hp with hp1 | hp2
        · exact ⟨(hfresh1 p hp1).1, hsub2 ((hfresh1 p hp1).2)⟩
        · exact ⟨fun hmem => (hfresh2 p hp2).1 (hsub1 hmem), (hfresh2 p hp2).2⟩

theorem buildFactory_expanded (reg : List Recipe) (fitness : List Recipe → Recipe)
    (excl : List String) : ∀ fuel : Nat, BuildPOK reg fitness excl fuel := by
  intro fuel
  induction fuel with
  | zero =>
    intro node products depth hch
    cases node with
    | mk rcp q cs =>
      simp only [Node.children_mk] at hch
      subst hch
      rw [buildFactory]
      exact ⟨List.Subset.refl products, by simp [expandedProducts, expandedList],
        by simp [expandedProducts, expandedList]⟩
  | succ f ihf =>
    intro node products depth hch
    cases node with
    | mk rcp q cs =>
      simp only [Node.children_mk] at hch
      subst hch
      by_cases hd : depth = (0 : Int)
      · rw [buildFactory, if_pos hd]
        exact ⟨List.Subset.refl products, by simp [expandedProducts, expandedList],
          by simp [expandedProducts, expandedList]⟩
      · by_cases hmem : (Recipe.product rcp).name ∈ products
        · rw [buildFactory, if_neg hd, if_pos hmem]
          exact ⟨List.Subset.refl products, by simp [expandedProducts, expandedList],
            by simp [expandedProducts, expandedList]⟩
        · rw [buildFactory, if_neg hd, if_neg hmem]
          simp only []
          obtain ⟨hsub, hnd, hfresh⟩ :=
            buildChildren_expanded_of reg fitness excl f ihf rcp.inputs
              ((Recipe.product rcp).name :: products) (depth - 1)
          have hsub0 : products ⊆ (buildChildren reg fitness excl rcp.inputs
              ((Recipe.product rcp).name :: products) (depth - 1) f).2 :=
            (List.subset_cons_self (Recipe.product rcp).name products).trans hsub
          refine ⟨hsub0, ?_, ?_⟩
          · simp only [List.nil_append]
            apply expandedProducts_mk_nodup hnd
            intro hin
            exact (hfresh _ hin).1 (List.mem_cons_self _ products)
          · intro p hp
            simp only [List.nil_append] at hp
            rcases expandedProducts_mk_mem hp with he | hm
            · subst he
              exact ⟨hmem, hsub (List.mem_cons_self _ products)⟩
            · refine ⟨fun hin => (hfresh p hm).1 (List.mem_cons_of_mem _ hin),
                (hfresh p hm).2⟩

theorem expanded_of_mem : ∀ t : Node, ∀ n ∈ preOrderNodes t, n.children ≠ [] →
    (Recipe.product n.recipe).name ∈ expandedProducts t := by
  intro t
  induction t using nodeMemRec with
  | h rcp q cs ih =>
    intro n hn hch
    rw [preOrderNodes] at hn
    rcases List.mem_cons.mp hn with he | hm
    · subst he
      simp only [Node.children_mk] at hch
      simp only [Node.recipe_mk]
      cases cs with
      | nil => exact absurd rfl hch
      | cons c cs2 =>
        rw [expandedProducts]
        simp [List.isEmpty_cons]
    · obtain ⟨c, hc, hnc⟩ := (mem_preOrderList n cs).mp hm
      have hx := ih c hc n hnc hch
      rw [expandedProducts]
      rw [List.mem_append]
      exact Or.inr ((mem_expandedList _ cs).mpr ⟨c, hc, hx⟩)

/-- C6: build with max_depth = 0 yields the root alone, pruned of children,
with the products set unchanged, for every catalog, policy and seed set; in
general the recursion returns immediately whenever the remaining depth is 0,
and all negative depths (the unlimited sentinel -1 and everything the
per-level decrement turns it into) behave identically - the counter never
reaches 0 from below. -/
theorem build_depth_zero (reg : List Recipe) (fitness : List Recipe → Recipe)
    (excl existing : List String) (fuel : Nat) (root : Node) :
    (build reg fitness excl existing 0 fuel root =
      (.mk root.recipe root.quantity [], existing)) ∧
    (∀ node products, buildFactory reg fitness excl node products 0 fuel =
      (node, products)) ∧
    (∀ node products (d d' : Int), d < 0 → d' < 0 →
      buildFactory reg fitness excl node products d fuel =
        buildFactory reg fitness excl node products d' fuel) := by
  refine ⟨?_, ?_, (buildFactory_neg_depth fuel reg fitness excl).1⟩
  · rw [build, buildFactory_zero_depth]
  · intro node products
    exact buildFactory_zero_depth reg fitness excl node products fuel

/-- C6 witness: a concrete depth-0 build keeps only the pruned root, and the
sentinel depths -1 and -2 agree on a concrete build. -/
theorem build_depth_zero_witness :
    (build [smeltOre, makeWidget] (fun l => l.headD makeWidget) [] [] 0 5 widgetTree =
      (.mk makeWidget 1 [], [])) ∧
    (buildFactory [smeltOre, makeWidget] (fun l => l.headD makeWidget) [] widgetTree []
        (-1) 3 =
      buildFactory [smeltOre, makeWidget] (fun l => l.headD makeWidget) [] widgetTree []
        (-2) 3) := by
  constructor
  · have h := (build_depth_zero [smeltOre, makeWidget] (fun l => l.headD makeWidget)
      [] [] 5 widgetTree).1
    simpa [widgetTree] using h
  · exact (build_depth_zero [smeltOre, makeWidget] (fun l => l.headD makeWidget)
      [] [] 3 widgetTree).2.2 widgetTree [] (-1) (-2) (by decide) (by decide)

/-- C7: a node whose primary product is already in the shared set when it is
visited is returned unchanged - in particular it keeps no children - before
its own product would be added; consequently no product name is ever expanded
twice: the products of the expanded (children-carrying) nodes of a built tree
are pairwise distinct and disjoint from the seed set, so a later occurrence
of an already-expanded good always stays a leaf. -/
theorem build_duplicate_pruning (reg : List Recipe) (fitness : List Recipe → Recipe)
    (excl existing products : List String) (node : Node) (depth maxDepth : Int)
    (fuel : Nat) (root : Node) :
    ((Recipe.product node.recipe).name ∈ products →
      buildFactory reg fitness excl node products depth fuel = (node, products)) ∧
    (expandedProducts (build reg fitness excl existing maxDepth fuel root).1).Nodup ∧
    (∀ p ∈ expandedProducts (build reg fitness excl existing maxDepth fuel root).1,
      ¬ p ∈ existing) := by
  refine ⟨?_, ?_, ?_⟩
  · intro hmem
    cases fuel with
    | zero => rw [buildFactory]
    | succ f =>
      cases node with
      | mk rcp q cs =>
        simp only [Node.recipe_mk] at hmem
        by_cases hd : depth = (0 : Int)
        · rw [buildFactory, if_pos hd]
        · rw [buildFactory, if_neg hd, if_pos hmem]
  · exact ((buildFactory_expanded reg fitness excl fuel)
      (.mk root.recipe root.quantity []) existing maxDepth rfl).2.1
  · intro p hp
    exact (((buildFactory_expanded reg fitness excl fuel)
      (.mk root.recipe root.quantity []) existing maxDepth rfl).2.2 p hp).1

/-- C7 witness: a node producing "Widget" visited while "Widget" is already
in the shared set is left untouched, children and all. -/
theorem build_duplicate_pruning_witness :
    buildFactory [smeltOre, makeWidget] (fun l => l.headD makeWidget) [] widgetTree
      ["Widget"] (-1) 5 = (widgetTree, ["Widget"]) :=
  (build_duplicate_pruning [smeltOre, makeWidget] (fun l => l.headD makeWidget)
    [] [] ["Widget"] widgetTree (-1) (-1) 5 widgetTree).1
    (by simp [widgetTree, makeWidget, Recipe.product])

/-- C10: the caller-supplied seed set is aliased exactly when non-empty - the
caller then observes the recursion's final set, which extends the seed and
includes the primary product of every node that gained children; an empty
seed set is replaced by a fresh set and the caller's set stays empty. -/
theorem build_seed_aliasing (reg : List Recipe) (fitness : List Recipe → Recipe)
    (excl existing : List String) (maxDepth : Int) (fuel : Nat) (root : Node) :
    (existing = [] →
      buildCallerSet reg fitness excl existing maxDepth fuel root = existing) ∧
    (existing ≠ [] →
      buildCallerSet reg fitness excl existing maxDepth fuel root =
        (build reg fitness excl existing maxDepth fuel root).2 ∧
      existing ⊆ buildCallerSet reg fitness excl existing maxDepth fuel root ∧
      ∀ n ∈ preOrderNodes (build reg fitness excl existing maxDepth fuel root).1,
        n.children ≠ [] →
          (Recipe.product n.recipe).name ∈
            buildCallerSet reg fitness excl existing maxDepth fuel root) := by
  constructor
  · intro he
    rw [buildCallerSet, if_pos he]
  · intro hne
    rw [buildCallerSet, if_neg hne]
    obtain ⟨hsub, _, hfresh⟩ := (buildFactory_expanded reg fitness excl fuel)
      (.mk root.recipe root.quantity []) existing maxDepth rfl
    refine ⟨rfl, hsub, ?_⟩
    intro n hn hch
    have hx := expanded_of_mem (build reg fitness excl existing maxDepth fuel root).1
      n hn hch
    exact (hfresh _ hx).2

/-- C10 witness: with the non-empty seed set containing only "Seed", the
caller's set afterwards is the recursion's final set: it still contains
"Seed" and also "Widget" and "Bar", the products of the two expanded nodes. -/
theorem build_seed_aliasing_witness :
    buildCallerSet [smeltOre, makeWidget] (fun l => l.headD makeWidget) [] ["Seed"]
        (-1) 5 widgetTree =
      (build [smeltOre, makeWidget] (fun l => l.headD makeWidget) [] ["Seed"]
        (-1) 5 widgetTree).2 :=
  ((build_seed_aliasing [smeltOre, makeWidget] (fun l => l.headD makeWidget) [] ["Seed"]
    (-1) 5 widgetTree).2 (by simp)).1
